import Mathlib

/-!
Shallow embedding of tyilo/patricia_tree_rust (src/map.rs, src/set.rs).

Keys are Rust u64 values, embedded as Nat with explicit < 2^64 bounds where
overflow or the width matters.  Field and function names follow the source;
the Rust field and function names key_prefix / get_prefix / find_leftmost
appear here as key_pfx / get_pfx / flLoop-based definitions (renamed only
where the verification toolchain restricts identifiers), and the mutable
in-place descent of insert (find_insertion_point_mut followed by an in-place
replacement at the stopping node) is embedded as the functional rebuild
insert_aux along the identical descent, with the identical stopping
condition; the theorem insert_spec below ties its returned previous value to
get, which is literally the read-only descent of the source.
-/

namespace Patricia

/-- Rust enum Node<V>: Leaf { key, value } | Internal { key_prefix, branch_bit, left, right }. -/
inductive Node (V : Type) where
  | Leaf (key : Nat) (value : V)
  | Internal (key_pfx : Nat) (branch_bit : Nat) (left : Node V) (right : Node V)
deriving DecidableEq

/-- Rust struct PatriciaTreeMap<V> { size: usize, root: Option<Box<Node<V>>> }. -/
structure PatriciaTreeMap (V : Type) where
  size : Nat
  root : Option (Node V)
deriving DecidableEq

variable {V : Type}

/-- PatriciaTreeMap::new. -/
def PatriciaTreeMap.new : PatriciaTreeMap V := { size := 0, root := none }

/-- PatriciaTreeMap::len. -/
def PatriciaTreeMap.len (m : PatriciaTreeMap V) : Nat := m.size

/-- PatriciaTreeMap::is_empty. -/
def PatriciaTreeMap.is_empty (m : PatriciaTreeMap V) : Bool := m.len == 0

/-- Rust: let mask = (1 << branch_bit) - 1; key & mask.  (get_prefix in the source.) -/
def get_pfx (key branch_bit : Nat) : Nat := key &&& ((1 <<< branch_bit) - 1)

/-- Rust: key & (1 << branch_bit) == 0.  (is_left in the source.) -/
def is_left (key branch_bit : Nat) : Bool := key &&& (1 <<< branch_bit) == 0

/-- u64::trailing_zeros, one division step per fuel unit; 64 units suffice for u64. -/
def tzFuel : Nat → Nat → Nat
  | 0, _ => 0
  | fuel + 1, n => if n % 2 = 1 then 0 else tzFuel fuel (n / 2) + 1

/-- diff.trailing_zeros() for a u64 diff (returns 64 on 0, as in Rust). -/
def trailing_zeros (n : Nat) : Nat := tzFuel 64 n

/-- The aux descent of find_insertion_point / find_insertion_point_mut:
walk while the node's key_prefix matches the key's low bits, stop at a leaf
or at the first mismatching internal node. -/
def fip_aux (key : Nat) : Node V → Node V
  | .Leaf k v => .Leaf k v
  | .Internal p bb l r =>
    if p ≠ get_pfx key bb then .Internal p bb l r
    else if is_left key bb then fip_aux key l else fip_aux key r

/-- PatriciaTreeMap::find_insertion_point. -/
def PatriciaTreeMap.find_insertion_point (m : PatriciaTreeMap V) (key : Nat) :
    Option (Node V) :=
  m.root.map (fip_aux key)

/-- PatriciaTreeMap::get. -/
def PatriciaTreeMap.get (m : PatriciaTreeMap V) (key : Nat) : Option V :=
  match m.find_insertion_point key with
  | some (.Leaf k v) => if k = key then some v else none
  | _ => none

/-- PatriciaTreeMap::contains. -/
def PatriciaTreeMap.contains (m : PatriciaTreeMap V) (key : Nat) : Bool :=
  (m.get key).isSome

/-- The lookup along fip_aux on a single tree (get with this tree at the root). -/
def lookupT (key : Nat) (t : Node V) : Option V :=
  match fip_aux key t with
  | .Leaf k v => if k = key then some v else none
  | _ => none

/-- do_insert from the source: build the new Internal node splitting the new
leaf from the stopped-at node, branch bit = diff.trailing_zeros(). -/
def do_insert (diff key : Nat) (value : V) (node : Node V) : Node V :=
  let branch_bit := trailing_zeros diff
  let key_pfx := get_pfx key branch_bit
  let leaf : Node V := .Leaf key value
  if is_left key branch_bit then .Internal key_pfx branch_bit leaf node
  else .Internal key_pfx branch_bit node leaf

/-- The body of insert's aux on a nonempty tree: the mutable descent of
find_insertion_point_mut followed by the in-place update at the stopping
node, embedded as a rebuild along the same path.  Returns (new tree,
previous value). -/
def insert_aux (key : Nat) (value : V) : Node V → Node V × Option V
  | .Leaf k v =>
    if k ≠ key then (do_insert (k ^^^ key) key value (.Leaf k v), none)
    else (.Leaf k value, some v)
  | .Internal p bb l r =>
    if p ≠ get_pfx key bb then (do_insert (p ^^^ key) key value (.Internal p bb l r), none)
    else if is_left key bb then
      let res := insert_aux key value l
      (.Internal p bb res.1 r, res.2)
    else
      let res := insert_aux key value r
      (.Internal p bb l res.1, res.2)

/-- PatriciaTreeMap::insert: returns the updated map and the previous value;
size += res.is_none() as usize. -/
def PatriciaTreeMap.insert (m : PatriciaTreeMap V) (key : Nat) (value : V) :
    PatriciaTreeMap V × Option V :=
  match m.root with
  | none => ({ size := m.size + 1, root := some (.Leaf key value) }, none)
  | some t =>
    let res := insert_aux key value t
    ({ size := m.size + (if res.2.isNone then 1 else 0), root := some res.1 }, res.2)

/-- A pushed &InternalNode reference in the iterator's path stack. -/
structure INode (V : Type) where
  key_pfx : Nat
  branch_bit : Nat
  left : Node V
  right : Node V
deriving DecidableEq

/-- Rust struct PatriciaTreeMapIterator { map, path, last_was_left }.
The Vec path is embedded head-first: push = cons, pop = head. -/
structure Iter (V : Type) where
  map : PatriciaTreeMap V
  path : List (INode V)
  last_was_left : Bool
deriving DecidableEq

/-- The loop of find_leftmost: push internal nodes, set last_was_left, and
descend left until a leaf; the incoming Bool is the flag value at loop entry
(find_leftmost itself enters with false). -/
def flLoop (path : List (INode V)) (lwl : Bool) : Node V → List (INode V) × Bool × Nat × V
  | .Leaf k v => (path, lwl, k, v)
  | .Internal p bb l r => flLoop (⟨p, bb, l, r⟩ :: path) true l

/-- The backtracking loop in next() when the previous leaf was not reached
through a left child: pop ancestors reached through their right child until
one reached through its left child is found. -/
def backtrack : INode V → List (INode V) → Option (INode V × List (INode V))
  | _, [] => none
  | node, parent :: rest =>
    if is_left node.key_pfx parent.branch_bit then some (parent, rest)
    else backtrack parent rest

/-- PatriciaTreeMapIterator::next. -/
def Iter.next (it : Iter V) : Iter V × Option (Nat × V) :=
  match it.path with
  | [] =>
    match it.map.root with
    | none => (it, none)
    | some node =>
      if it.last_was_left then
        let r := flLoop ([] : List (INode V)) false node
        ({ it with path := r.1, last_was_left := r.2.1 }, some r.2.2)
      else
        ({ it with last_was_left := true }, none)
  | top :: rest =>
    match (if it.last_was_left then some (top, rest) else backtrack top rest) with
    | none => ({ it with path := [], last_was_left := true }, none)
    | some (node, rest2) =>
      let r := flLoop (node :: rest2) false node.right
      ({ it with path := r.1, last_was_left := r.2.1 }, some r.2.2)

/-- PatriciaTreeMap::iter / PatriciaTreeMapIterator::new. -/
def PatriciaTreeMap.iter (m : PatriciaTreeMap V) : Iter V :=
  { map := m, path := [], last_was_left := true }

/-- Run n successive next() calls, collecting each call's output in order. -/
def Iter.run : Iter V → Nat → List (Option (Nat × V)) × Iter V
  | it, 0 => ([], it)
  | it, n + 1 =>
    let s := it.next
    let r := s.1.run n
    (s.2 :: r.1, r.2)

/-- Rust struct PatriciaTreeSet { base: PatriciaTreeMap<()> }. -/
structure PatriciaTreeSet where
  base : PatriciaTreeMap Unit
deriving DecidableEq

/-- PatriciaTreeSet::new. -/
def PatriciaTreeSet.new : PatriciaTreeSet := ⟨PatriciaTreeMap.new⟩

/-- PatriciaTreeSet::len. -/
def PatriciaTreeSet.len (s : PatriciaTreeSet) : Nat := s.base.len

/-- PatriciaTreeSet::is_empty. -/
def PatriciaTreeSet.is_empty (s : PatriciaTreeSet) : Bool := s.base.is_empty

/-- PatriciaTreeSet::contains. -/
def PatriciaTreeSet.contains (s : PatriciaTreeSet) (key : Nat) : Bool :=
  s.base.contains key

/-- PatriciaTreeSet::insert: true iff the underlying map reported no previous value. -/
def PatriciaTreeSet.insert (s : PatriciaTreeSet) (key : Nat) : PatriciaTreeSet × Bool :=
  let r := s.base.insert key ()
  (⟨r.1⟩, r.2.isNone)

/-! ## Structural views of a tree -/

/-- The multiset of keys stored in a tree, in in-order. -/
def nodeKeys : Node V → List Nat
  | .Leaf k _ => [k]
  | .Internal _ _ l r => nodeKeys l ++ nodeKeys r

/-- In-order list of (key, value) pairs. -/
def inorder : Node V → List (Nat × V)
  | .Leaf k v => [(k, v)]
  | .Internal _ _ l r => inorder l ++ inorder r

/-- Number of leaves. -/
def leafCount : Node V → Nat
  | .Leaf _ _ => 1
  | .Internal _ _ l r => leafCount l + leafCount r

/-- The leftmost (first in-order) leaf's pair. -/
def firstLeaf : Node V → Nat × V
  | .Leaf k v => (k, v)
  | .Internal _ _ l _ => firstLeaf l

/-! ## Well-formedness of reachable trees

For every internal node with branch bit bb: left keys have bit bb clear,
right keys have it set, all keys agree with key_pfx below bb, key_pfx has
only bits below bb, and bb < 64; leaf keys are u64 values. -/

inductive Good : Node V → Prop where
  | leaf (k : Nat) (v : V) : k < 2 ^ 64 → Good (.Leaf k v)
  | internal (p bb : Nat) (l r : Node V) :
      bb < 64 → p < 2 ^ bb →
      (∀ k ∈ nodeKeys l, (∀ i, i < bb → k.testBit i = p.testBit i) ∧ k.testBit bb = false) →
      (∀ k ∈ nodeKeys r, (∀ i, i < bb → k.testBit i = p.testBit i) ∧ k.testBit bb = true) →
      Good l → Good r → Good (.Internal p bb l r)

/-- Map-level well-formedness: a good tree whose leaf count is cached in size. -/
def WF (m : PatriciaTreeMap V) : Prop :=
  (m.root = none → m.size = 0) ∧
  ∀ t, m.root = some t → Good t ∧ m.size = leafCount t

/-! ## Bit-level bridging lemmas -/

lemma and_two_pow_eq_zero_iff (x b : Nat) : x &&& 2 ^ b = 0 ↔ x.testBit b = false := by
  constructor
  · intro h
    have h2 := congrArg (fun n => Nat.testBit n b) h
    simpa [Nat.testBit_and, Nat.testBit_two_pow_self] using h2
  · intro h
    apply Nat.eq_of_testBit_eq
    intro i
    simp only [Nat.testBit_and, Nat.zero_testBit]
    by_cases hib : i = b
    · subst hib; simp [h]
    · simp [Nat.testBit_two_pow_of_ne (fun he => hib he.symm)]

lemma is_left_eq (x b : Nat) : is_left x b = !x.testBit b := by
  unfold is_left
  rw [Nat.one_shiftLeft]
  cases h : x.testBit b with
  | false => simp [beq_iff_eq, (and_two_pow_eq_zero_iff x b).2 h]
  | true =>
    have hne : ¬ x &&& 2 ^ b = 0 := by
      intro hc
      rw [(and_two_pow_eq_zero_iff x b).1 hc] at h
      cases h
    simp [beq_iff_eq, hne]

lemma get_pfx_eq (x b : Nat) : get_pfx x b = x % 2 ^ b := by
  unfold get_pfx
  rw [Nat.one_shiftLeft]
  apply Nat.eq_of_testBit_eq
  intro i
  simp [Nat.testBit_and, Nat.testBit_mod_two_pow, Bool.and_comm]

lemma mod_two_pow_eq_iff {p n : Nat} (hp : p < 2 ^ n) (x : Nat) :
    x % 2 ^ n = p ↔ ∀ i, i < n → x.testBit i = p.testBit i := by
  constructor
  · intro h i hi
    have h2 := congrArg (fun y => Nat.testBit y i) h
    simpa [Nat.testBit_mod_two_pow, hi] using h2
  · intro h
    apply Nat.eq_of_testBit_eq
    intro i
    rw [Nat.testBit_mod_two_pow]
    by_cases hi : i < n
    · simp [hi, h i hi]
    · have hpi : p.testBit i = false :=
        Nat.testBit_lt_two_pow
          (lt_of_lt_of_le hp (Nat.pow_le_pow_right (by norm_num) (le_of_not_lt hi)))
      simp [hi, hpi]

lemma tzFuel_spec : ∀ (f n : Nat), n ≠ 0 → n < 2 ^ f →
    tzFuel f n < f ∧ n.testBit (tzFuel f n) = true ∧
      ∀ i, i < tzFuel f n → n.testBit i = false := by
  intro f
  induction f with
  | zero =>
    intro n h0 hlt
    exact absurd (Nat.lt_one_iff.1 (by simpa using hlt)) h0
  | succ f ih =>
    intro n h0 hlt
    by_cases h : n % 2 = 1
    · refine ⟨by simp [tzFuel, h], ?_, ?_⟩
      · simp [tzFuel, h, Nat.testBit_zero]
      · intro i hi
        simp [tzFuel, h] at hi
    · have h2 : n % 2 = 0 := by omega
      have hhalf : n / 2 ≠ 0 := by omega
      have hhalf_lt : n / 2 < 2 ^ f := by
        have hps : (2 : Nat) ^ (f + 1) = 2 ^ f * 2 := pow_succ 2 f
        omega
      obtain ⟨ha, hb, hc⟩ := ih (n / 2) hhalf hhalf_lt
      refine ⟨by simp [tzFuel, h]; omega, ?_, ?_⟩
      · simpa [tzFuel, h, Nat.testBit_succ] using hb
      · intro i hi
        simp only [tzFuel, h, if_false] at hi
        cases i with
        | zero => simp [Nat.testBit_zero, h2]
        | succ j =>
          rw [Nat.testBit_succ]
          exact hc j (by omega)

lemma trailing_zeros_spec {n : Nat} (h0 : n ≠ 0) (hlt : n < 2 ^ 64) :
    trailing_zeros n < 64 ∧ n.testBit (trailing_zeros n) = true ∧
      ∀ i, i < trailing_zeros n → n.testBit i = false :=
  tzFuel_spec 64 n h0 hlt

lemma trailing_zeros_eq {n b : Nat} (hlt : n < 2 ^ 64) (h1 : n.testBit b = true)
    (h2 : ∀ i, i < b → n.testBit i = false) : trailing_zeros n = b := by
  have h0 : n ≠ 0 := by
    intro h
    subst h
    simp [Nat.zero_testBit] at h1
  obtain ⟨_, hb, hc⟩ := trailing_zeros_spec h0 hlt
  rcases Nat.lt_trichotomy (trailing_zeros n) b with h | h | h
  · rw [h2 _ h] at hb; cases hb
  · exact h
  · rw [hc _ h] at h1; cases h1

/-! ## Basic structural lemmas -/

lemma nodeKeys_ne_nil (t : Node V) : nodeKeys t ≠ [] := by
  induction t with
  | Leaf k v => simp [nodeKeys]
  | Internal p bb l r ihl ihr => simp [nodeKeys, ihl]

lemma keys_lt (t : Node V) (hg : Good t) : ∀ k ∈ nodeKeys t, k < 2 ^ 64 := by
  induction t with
  | Leaf k v =>
    cases hg with
    | leaf _ _ hk => simpa [nodeKeys] using hk
  | Internal p bb l r ihl ihr =>
    cases hg with
    | internal _ _ _ _ _ _ _ _ hgl hgr =>
      intro k hk
      rcases List.mem_append.1 (by simpa [nodeKeys] using hk) with h | h
      · exact ihl hgl k h
      · exact ihr hgr k h

lemma leafCount_pos (t : Node V) : 1 ≤ leafCount t := by
  induction t with
  | Leaf k v => simp [leafCount]
  | Internal p bb l r ihl ihr => simp [leafCount]; omega

/-- A non-leaf child of a good internal node branches on a strictly higher
bit, and its key_pfx carries the parent's routing bit: clear for the left
child, set for the right child. -/
lemma child_pfx_left {p bb : Nat} {l r : Node V} (hg : Good (.Internal p bb l r))
    {p' bb' : Nat} {l' r' : Node V} (hl : l = .Internal p' bb' l' r') :
    bb < bb' ∧ p'.testBit bb = false := by
  cases hg with
  | internal _ _ _ _ hbb hp hL hR hgl hgr =>
    subst hl
    cases hgl with
    | internal _ _ _ _ hbb' hp' hL' hR' _ _ =>
      obtain ⟨ka, hka⟩ := List.exists_mem_of_ne_nil _ (nodeKeys_ne_nil l')
      obtain ⟨kb, hkb⟩ := List.exists_mem_of_ne_nil _ (nodeKeys_ne_nil r')
      have hkal : ka ∈ nodeKeys (Node.Internal p' bb' l' r') := by
        simp [nodeKeys, hka]
      have hkbl : kb ∈ nodeKeys (Node.Internal p' bb' l' r') := by
        simp [nodeKeys, hkb]
      have hbblt : bb < bb' := by
        rcases Nat.lt_trichotomy bb bb' with h | h | h
        · exact h
        · exfalso
          have h1 : kb.testBit bb = false := (hL kb hkbl).2
          have h2 : kb.testBit bb' = true := (hR' kb hkb).2
          rw [h] at h1
          rw [h1] at h2
          cases h2
        · exfalso
          have h1 : ka.testBit bb' = (p.testBit bb' : Bool) := (hL ka hkal).1 bb' h
          have h2 : kb.testBit bb' = (p.testBit bb' : Bool) := (hL kb hkbl).1 bb' h
          have h3 : ka.testBit bb' = false := (hL' ka hka).2
          have h4 : kb.testBit bb' = true := (hR' kb hkb).2
          rw [h3] at h1
          rw [h4] at h2
          rw [← h1] at h2
          cases h2
      refine ⟨hbblt, ?_⟩
      have h5 : ka.testBit bb = (p'.testBit bb : Bool) := (hL' ka hka).1 bb hbblt
      have h6 : ka.testBit bb = false := (hL ka hkal).2
      rw [h6] at h5
      exact h5.symm

/-- Right-child version of child_pfx_left. -/
lemma child_pfx_right {p bb : Nat} {l r : Node V} (hg : Good (.Internal p bb l r))
    {p' bb' : Nat} {l' r' : Node V} (hr : r = .Internal p' bb' l' r') :
    bb < bb' ∧ p'.testBit bb = true := by
  cases hg with
  | internal _ _ _ _ hbb hp hL hR hgl hgr =>
    subst hr
    cases hgr with
    | internal _ _ _ _ hbb' hp' hL' hR' _ _ =>
      obtain ⟨ka, hka⟩ := List.exists_mem_of_ne_nil _ (nodeKeys_ne_nil l')
      obtain ⟨kb, hkb⟩ := List.exists_mem_of_ne_nil _ (nodeKeys_ne_nil r')
      have hkal : ka ∈ nodeKeys (Node.Internal p' bb' l' r') := by
        simp [nodeKeys, hka]
      have hkbl : kb ∈ nodeKeys (Node.Internal p' bb' l' r') := by
        simp [nodeKeys, hkb]
      have hbblt : bb < bb' := by
        rcases Nat.lt_trichotomy bb bb' with h | h | h
        · exact h
        · exfalso
          have h1 : ka.testBit bb = true := (hR ka hkal).2
          have h2 : ka.testBit bb' = false := (hL' ka hka).2
          rw [h] at h1
          rw [h1] at h2
          cases h2
        · exfalso
          have h1 : ka.testBit bb' = (p.testBit bb' : Bool) := (hR ka hkal).1 bb' h
          have h2 : kb.testBit bb' = (p.testBit bb' : Bool) := (hR kb hkbl).1 bb' h
          have h3 : ka.testBit bb' = false := (hL' ka hka).2
          have h4 : kb.testBit bb' = true := (hR' kb hkb).2
          rw [h3] at h1
          rw [h4] at h2
          rw [← h1] at h2
          cases h2
      refine ⟨hbblt, ?_⟩
      have h5 : ka.testBit bb = (p'.testBit bb : Bool) := (hL' ka hka).1 bb hbblt
      have h6 : ka.testBit bb = true := (hR ka hkal).2
      rw [h6] at h5
      exact h5.symm

lemma nodeKeys_eq_map (t : Node V) : nodeKeys t = (inorder t).map Prod.fst := by
  induction t with
  | Leaf k v => simp [nodeKeys, inorder]
  | Internal p bb l r ihl ihr => simp [nodeKeys, inorder, ihl, ihr]

lemma mem_nodeKeys_of_mem_inorder {t : Node V} {k : Nat} {v : V}
    (h : (k, v) ∈ inorder t) : k ∈ nodeKeys t := by
  rw [nodeKeys_eq_map]
  exact List.mem_map.2 ⟨(k, v), h, rfl⟩

lemma mod_two_pow_eq_mod_iff (x y n : Nat) :
    x % 2 ^ n = y % 2 ^ n ↔ ∀ i, i < n → x.testBit i = y.testBit i := by
  constructor
  · intro h i hi
    have h2 := congrArg (fun z => Nat.testBit z i) h
    simpa [Nat.testBit_mod_two_pow, hi] using h2
  · intro h
    apply Nat.eq_of_testBit_eq
    intro i
    rw [Nat.testBit_mod_two_pow, Nat.testBit_mod_two_pow]
    by_cases hi : i < n
    · simp [hi, h i hi]
    · simp [hi]

/-! ## Unfolding lemmas for the descent -/

lemma lookupT_leaf (k k0 : Nat) (v0 : V) :
    lookupT k (.Leaf k0 v0) = if k0 = k then some v0 else none := rfl

lemma lookupT_internal_mismatch {p bb k : Nat} {l r : Node V}
    (h : p ≠ get_pfx k bb) : lookupT k (.Internal p bb l r) = none := by
  simp only [lookupT, fip_aux, if_pos h]

lemma lookupT_internal_left {p bb k : Nat} {l r : Node V}
    (h : p = get_pfx k bb) (hside : is_left k bb = true) :
    lookupT k (.Internal p bb l r) = lookupT k l := by
  simp only [lookupT, fip_aux, h, ne_eq, not_true_eq_false, if_false, hside, if_true]

lemma lookupT_internal_right {p bb k : Nat} {l r : Node V}
    (h : p = get_pfx k bb) (hside : is_left k bb = false) :
    lookupT k (.Internal p bb l r) = lookupT k r := by
  simp only [lookupT, fip_aux, h, ne_eq, not_true_eq_false, if_false, hside,
    Bool.false_eq_true]

/-- Lookup on a good tree finds exactly the in-order stored pairs. -/
lemma lookupT_iff {t : Node V} (hg : Good t) (k : Nat) (v : V) :
    lookupT k t = some v ↔ (k, v) ∈ inorder t := by
  induction t with
  | Leaf k0 v0 =>
    simp only [lookupT_leaf, inorder, List.mem_singleton]
    by_cases h : k0 = k
    · subst h
      simp [eq_comm]
    · simp only [h, if_false]
      constructor
      · intro hc; cases hc
      · intro he
        have h1 : k = k0 := congrArg Prod.fst he
        exact absurd h1.symm h
  | Internal p bb l r ihl ihr =>
    have hinv := hg
    cases hinv with
    | internal _ _ _ _ hbb hp hL hR hgl hgr =>
      by_cases hmis : p = get_pfx k bb
      · have hpk : ∀ i, i < bb → k.testBit i = p.testBit i := by
          intro i hi
          have h2 : k % 2 ^ bb = p := by
            rw [get_pfx_eq] at hmis
            omega
          exact (mod_two_pow_eq_iff hp k).1 h2 i hi
        cases hside : is_left k bb with
        | true =>
          rw [lookupT_internal_left hmis hside]
          have hkbit : k.testBit bb = false := by
            rw [is_left_eq] at hside
            cases h : k.testBit bb
            · rfl
            · rw [h] at hside; cases hside
          have hnr : (k, v) ∉ inorder r := by
            intro hmem
            have h1 := (hR k (mem_nodeKeys_of_mem_inorder hmem)).2
            rw [hkbit] at h1
            cases h1
          simp only [inorder, List.mem_append]
          rw [ihl hgl]
          exact ⟨Or.inl, fun h => h.elim id (fun h2 => absurd h2 hnr)⟩
        | false =>
          rw [lookupT_internal_right hmis hside]
          have hkbit : k.testBit bb = true := by
            rw [is_left_eq] at hside
            cases h : k.testBit bb
            · rw [h] at hside; cases hside
            · rfl
          have hnl : (k, v) ∉ inorder l := by
            intro hmem
            have h1 := (hL k (mem_nodeKeys_of_mem_inorder hmem)).2
            rw [hkbit] at h1
            cases h1
          simp only [inorder, List.mem_append]
          rw [ihr hgr]
          exact ⟨Or.inr, fun h => h.elim (fun h2 => absurd h2 hnl) id⟩
      · rw [lookupT_internal_mismatch hmis]
        constructor
        · intro h; cases h
        · intro hmem
          exfalso
          apply hmis
          rw [get_pfx_eq]
          have hagree : ∀ i, i < bb → k.testBit i = p.testBit i := by
            rcases List.mem_append.1 (by simpa [inorder] using hmem) with h | h
            · exact (hL k (mem_nodeKeys_of_mem_inorder h)).1
            · exact (hR k (mem_nodeKeys_of_mem_inorder h)).1
          exact ((mod_two_pow_eq_iff hp k).2 hagree).symm

lemma mem_nodeKeys_of_lookupT {t : Node V} (hg : Good t) {k : Nat} {v : V}
    (h : lookupT k t = some v) : k ∈ nodeKeys t :=
  mem_nodeKeys_of_mem_inorder ((lookupT_iff hg k v).1 h)

lemma testBit_get_pfx (key b i : Nat) :
    (get_pfx key b).testBit i = (decide (i < b) && key.testBit i) := by
  rw [get_pfx_eq]
  exact Nat.testBit_mod_two_pow key b i

lemma get_pfx_lt (key b : Nat) : get_pfx key b < 2 ^ b := by
  rw [get_pfx_eq]
  exact Nat.mod_lt _ (Nat.two_pow_pos b)

lemma do_insert_eq_left {d key : Nat} {value : V} {t : Node V}
    (h : key.testBit (trailing_zeros d) = false) :
    do_insert d key value t =
      .Internal (get_pfx key (trailing_zeros d)) (trailing_zeros d) (.Leaf key value) t := by
  simp [do_insert, is_left_eq, h]

lemma do_insert_eq_right {d key : Nat} {value : V} {t : Node V}
    (h : key.testBit (trailing_zeros d) = true) :
    do_insert d key value t =
      .Internal (get_pfx key (trailing_zeros d)) (trailing_zeros d) t (.Leaf key value) := by
  simp [do_insert, is_left_eq, h]

/-- Core correctness of do_insert: splicing the new leaf against the stopped-at
subtree t, when every key of t agrees with the new key below the branch bit
and differs from it exactly at the branch bit. -/
lemma do_insert_spec (d key : Nat) (value : V) (t : Node V) (hk : key < 2 ^ 64)
    (hg : Good t) (htz : trailing_zeros d < 64)
    (hkeys : ∀ k' ∈ nodeKeys t,
      (∀ i, i < trailing_zeros d → k'.testBit i = key.testBit i) ∧
      k'.testBit (trailing_zeros d) = !key.testBit (trailing_zeros d)) :
    Good (do_insert d key value t) ∧
    leafCount (do_insert d key value t) = leafCount t + 1 ∧
    (∀ k', lookupT k' (do_insert d key value t) =
      if k' = key then some value else lookupT k' t) ∧
    (∀ k' ∈ nodeKeys (do_insert d key value t), k' = key ∨ k' ∈ nodeKeys t) := by
  have hagree_pfx : ∀ i, i < trailing_zeros d →
      key.testBit i = (get_pfx key (trailing_zeros d)).testBit i := by
    intro i hi
    rw [testBit_get_pfx]
    simp [hi]
  have hmem_agree : ∀ k', k' ∈ nodeKeys t →
      ∀ i, i < trailing_zeros d → k'.testBit i = (get_pfx key (trailing_zeros d)).testBit i := by
    intro k' hm i hi
    rw [(hkeys k' hm).1 i hi]
    exact hagree_pfx i hi
  have hpfx_self : get_pfx key (trailing_zeros d) = get_pfx key (trailing_zeros d) := rfl
  have hguard : ∀ k', (get_pfx key (trailing_zeros d) = get_pfx k' (trailing_zeros d)) ↔
      ∀ i, i < trailing_zeros d → key.testBit i = k'.testBit i := by
    intro k'
    rw [get_pfx_eq, get_pfx_eq]
    exact mod_two_pow_eq_mod_iff key k' (trailing_zeros d)
  have hlk_none : ∀ k', k' ≠ key →
      (get_pfx key (trailing_zeros d) ≠ get_pfx k' (trailing_zeros d) ∨
        k'.testBit (trailing_zeros d) = key.testBit (trailing_zeros d)) →
      lookupT k' t = none := by
    intro k' _ hcase
    cases hlkt : lookupT k' t with
    | none => rfl
    | some v =>
      exfalso
      have hmem := mem_nodeKeys_of_lookupT hg hlkt
      rcases hcase with hc | hc
      · exact hc ((hguard k').2 (fun i hi => ((hkeys k' hmem).1 i hi).symm))
      · have h2 := (hkeys k' hmem).2
        rw [hc] at h2
        cases h : key.testBit (trailing_zeros d) <;> rw [h] at h2 <;> cases h2
  cases hb : key.testBit (trailing_zeros d) with
  | false =>
    rw [do_insert_eq_left hb]
    refine ⟨?_, ?_, ?_, ?_⟩
    · refine Good.internal _ _ _ _ htz (get_pfx_lt key (trailing_zeros d)) ?_ ?_
        (Good.leaf key value hk) hg
      · intro k hm
        have hkm : k = key := by simpa [nodeKeys] using hm
        subst hkm
        exact ⟨hagree_pfx, hb⟩
      · intro k hm
        refine ⟨hmem_agree k hm, ?_⟩
        rw [(hkeys k hm).2, hb]
        rfl
    · simp [leafCount]
      omega
    · intro k'
      by_cases hk' : k' = key
      · subst hk'
        rw [lookupT_internal_left hpfx_self (by rw [is_left_eq, hb]; rfl)]
        simp [lookupT_leaf]
      · simp only [hk', if_false]
        by_cases hm : get_pfx key (trailing_zeros d) = get_pfx k' (trailing_zeros d)
        · cases hkb : k'.testBit (trailing_zeros d) with
          | false =>
            rw [lookupT_internal_left hm (by rw [is_left_eq, hkb]; rfl)]
            rw [lookupT_leaf, if_neg (fun h : key = k' => hk' h.symm)]
            exact (hlk_none k' hk' (Or.inr (by rw [hkb, hb]))).symm
          | true =>
            rw [lookupT_internal_right hm (by rw [is_left_eq, hkb]; rfl)]
        · rw [lookupT_internal_mismatch hm]
          exact (hlk_none k' hk' (Or.inl hm)).symm
    · intro k' hm
      simpa [nodeKeys] using hm
  | true =>
    rw [do_insert_eq_right hb]
    refine ⟨?_, ?_, ?_, ?_⟩
    · refine Good.internal _ _ _ _ htz (get_pfx_lt key (trailing_zeros d)) ?_ ?_
        hg (Good.leaf key value hk)
      · intro k hm
        refine ⟨hmem_agree k hm, ?_⟩
        rw [(hkeys k hm).2, hb]
        rfl
      · intro k hm
        have hkm : k = key := by simpa [nodeKeys] using hm
        subst hkm
        exact ⟨hagree_pfx, hb⟩
    · simp [leafCount]
    · intro k'
      by_cases hk' : k' = key
      · subst hk'
        rw [lookupT_internal_right hpfx_self (by rw [is_left_eq, hb]; rfl)]
        simp [lookupT_leaf]
      · simp only [hk', if_false]
        by_cases hm : get_pfx key (trailing_zeros d) = get_pfx k' (trailing_zeros d)
        · cases hkb : k'.testBit (trailing_zeros d) with
          | true =>
            rw [lookupT_internal_right hm (by rw [is_left_eq, hkb]; rfl)]
            rw [lookupT_leaf, if_neg (fun h : key = k' => hk' h.symm)]
            exact (hlk_none k' hk' (Or.inr (by rw [hkb, hb]))).symm
          | false =>
            rw [lookupT_internal_left hm (by rw [is_left_eq, hkb]; rfl)]
        · rw [lookupT_internal_mismatch hm]
          exact (hlk_none k' hk' (Or.inl hm)).symm
    · intro k' hm
      have h2 : k' ∈ nodeKeys t ∨ k' = key := by simpa [nodeKeys] using hm
      exact h2.symm

lemma testBit_eq_of_xor_bit_false {x y i : Nat} (h : (x ^^^ y).testBit i = false) :
    x.testBit i = y.testBit i := by
  rw [Nat.testBit_xor] at h
  cases h1 : x.testBit i <;> cases h2 : y.testBit i <;> simp_all

lemma testBit_eq_not_of_xor_bit_true {x y i : Nat} (h : (x ^^^ y).testBit i = true) :
    x.testBit i = !y.testBit i := by
  rw [Nat.testBit_xor] at h
  cases h1 : x.testBit i <;> cases h2 : y.testBit i <;> simp_all

lemma exists_low_diff {p key bb : Nat} (hp : p < 2 ^ bb) (hne : p ≠ get_pfx key bb) :
    ∃ i, i < bb ∧ (p ^^^ key).testBit i = true := by
  rw [get_pfx_eq] at hne
  by_contra hc
  push_neg at hc
  apply hne
  symm
  rw [mod_two_pow_eq_iff hp key]
  intro i hi
  have h2 : (p ^^^ key).testBit i = false := by
    have := hc i hi
    cases h : (p ^^^ key).testBit i
    · rfl
    · exact absurd h this
  exact (testBit_eq_of_xor_bit_false h2).symm

lemma insert_aux_leaf_ne {k0 key : Nat} {value : V} {v0 : V} (hne : k0 ≠ key) :
    insert_aux key value (.Leaf k0 v0) = (do_insert (k0 ^^^ key) key value (.Leaf k0 v0), none) := by
  simp [insert_aux, hne]

lemma insert_aux_leaf_same {key : Nat} {value v0 : V} :
    insert_aux key value (.Leaf key v0) = (.Leaf key value, some v0) := by
  simp [insert_aux]

lemma insert_aux_internal_mismatch {p bb key : Nat} {value : V} {l r : Node V}
    (hmis : p ≠ get_pfx key bb) :
    insert_aux key value (.Internal p bb l r) =
      (do_insert (p ^^^ key) key value (.Internal p bb l r), none) := by
  simp [insert_aux, hmis]

lemma insert_aux_internal_left {p bb key : Nat} {value : V} {l r : Node V}
    (hmis : p = get_pfx key bb) (hside : is_left key bb = true) :
    insert_aux key value (.Internal p bb l r) =
      (.Internal p bb (insert_aux key value l).1 r, (insert_aux key value l).2) := by
  simp [insert_aux, hmis, hside]

lemma insert_aux_internal_right {p bb key : Nat} {value : V} {l r : Node V}
    (hmis : p = get_pfx key bb) (hside : is_left key bb = false) :
    insert_aux key value (.Internal p bb l r) =
      (.Internal p bb l (insert_aux key value r).1, (insert_aux key value r).2) := by
  simp [insert_aux, hmis, hside]

/-- Full functional correctness of the insertion body on a good tree:
the result is good, the returned previous value is exactly what get finds,
the new tree's lookup is the pointwise overwrite, the leaf count grows by
one exactly when the key was absent, and no keys other than the new one
are introduced. -/
lemma insert_aux_spec (key : Nat) (value : V) (hk : key < 2 ^ 64) :
    ∀ t : Node V, Good t →
    Good (insert_aux key value t).1 ∧
    (insert_aux key value t).2 = lookupT key t ∧
    (∀ k', lookupT k' (insert_aux key value t).1 =
      if k' = key then some value else lookupT k' t) ∧
    leafCount (insert_aux key value t).1 =
      leafCount t + (if (insert_aux key value t).2.isNone then 1 else 0) ∧
    (∀ k' ∈ nodeKeys (insert_aux key value t).1, k' = key ∨ k' ∈ nodeKeys t) := by
  intro t
  induction t with
  | Leaf k0 v0 =>
    intro hg
    have hk0 : k0 < 2 ^ 64 := by
      cases hg with
      | leaf _ _ h => exact h
    by_cases hne : k0 = key
    · subst hne
      rw [insert_aux_leaf_same]
      refine ⟨Good.leaf k0 value hk, ?_, ?_, by simp [leafCount], ?_⟩
      · simp [lookupT_leaf]
      · intro k'
        by_cases h : k' = k0
        · subst h
          simp [lookupT_leaf]
        · have h2 : ¬ (k0 = k') := fun hc => h hc.symm
          simp [lookupT_leaf, h, h2]
      · intro k' hm
        exact Or.inl (by simpa [nodeKeys] using hm)
    · rw [insert_aux_leaf_ne hne]
      have hd0 : k0 ^^^ key ≠ 0 := fun h => hne (Nat.xor_eq_zero.1 h)
      have hdlt : k0 ^^^ key < 2 ^ 64 := Nat.xor_lt_two_pow hk0 hk
      obtain ⟨htz, hbit, hlow⟩ := trailing_zeros_spec hd0 hdlt
      have hkeys : ∀ k' ∈ nodeKeys (Node.Leaf k0 v0),
          (∀ i, i < trailing_zeros (k0 ^^^ key) → k'.testBit i = key.testBit i) ∧
          k'.testBit (trailing_zeros (k0 ^^^ key)) =
            !key.testBit (trailing_zeros (k0 ^^^ key)) := by
        intro k' hm
        have hk' : k' = k0 := by simpa [nodeKeys] using hm
        subst hk'
        exact ⟨fun i hi => testBit_eq_of_xor_bit_false (hlow i hi),
          testBit_eq_not_of_xor_bit_true hbit⟩
      obtain ⟨hG, hC, hM, hK⟩ :=
        do_insert_spec (k0 ^^^ key) key value (.Leaf k0 v0) hk (Good.leaf k0 v0 hk0) htz hkeys
      refine ⟨hG, ?_, hM, ?_, hK⟩
      · simp [lookupT_leaf, hne]
      · simpa using hC
  | Internal p bb l r ihl ihr =>
    intro hg
    have hinv := hg
    cases hinv with
    | internal _ _ _ _ hbb hp hL hR hgl hgr =>
      by_cases hmis : p = get_pfx key bb
      · have hpk : ∀ i, i < bb → key.testBit i = p.testBit i := by
          intro i hi
          have h2 : key % 2 ^ bb = p := by
            rw [get_pfx_eq] at hmis
            omega
          exact (mod_two_pow_eq_iff hp key).1 h2 i hi
        cases hside : is_left key bb with
        | true =>
          have hkbit : key.testBit bb = false := by
            rw [is_left_eq] at hside
            cases h : key.testBit bb
            · rfl
            · rw [h] at hside; cases hside
          rw [insert_aux_internal_left hmis hside]
          obtain ⟨ihG, ihRes, ihMap, ihCount, ihKeys⟩ := ihl hgl
          refine ⟨?_, ?_, ?_, ?_, ?_⟩
          · refine Good.internal p bb _ r hbb hp ?_ hR ihG hgr
            intro k hm
            rcases ihKeys k hm with h | h
            · subst h
              exact ⟨fun i hi => (hpk i hi), hkbit⟩
            · exact hL k h
          · rw [ihRes, lookupT_internal_left hmis hside]
          · intro k'
            by_cases hm' : p = get_pfx k' bb
            · cases hside' : is_left k' bb with
              | true =>
                rw [lookupT_internal_left hm' hside', ihMap k',
                  lookupT_internal_left hm' hside']
              | false =>
                have hk'k : k' ≠ key := by
                  intro h
                  subst h
                  rw [hside] at hside'
                  cases hside'
                rw [lookupT_internal_right hm' hside', if_neg hk'k,
                  lookupT_internal_right hm' hside']
            · have hk'k : k' ≠ key := fun h => hm' (h ▸ hmis)
              rw [lookupT_internal_mismatch hm', if_neg hk'k,
                lookupT_internal_mismatch hm']
          · simp only [leafCount]
            omega
          · intro k' hm
            simp only [nodeKeys, List.mem_append] at hm
            rcases hm with h | h
            · rcases ihKeys k' h with h2 | h2
              · exact Or.inl h2
              · exact Or.inr (by simp [nodeKeys, h2])
            · exact Or.inr (by simp [nodeKeys, h])
        | false =>
          have hkbit : key.testBit bb = true := by
            rw [is_left_eq] at hside
            cases h : key.testBit bb
            · rw [h] at hside; cases hside
            · rfl
          rw [insert_aux_internal_right hmis hside]
          obtain ⟨ihG, ihRes, ihMap, ihCount, ihKeys⟩ := ihr hgr
          refine ⟨?_, ?_, ?_, ?_, ?_⟩
          · refine Good.internal p bb l _ hbb hp hL ?_ hgl ihG
            intro k hm
            rcases ihKeys k hm with h | h
            · subst h
              exact ⟨fun i hi => (hpk i hi), hkbit⟩
            · exact hR k h
          · rw [ihRes, lookupT_internal_right hmis hside]
          · intro k'
            by_cases hm' : p = get_pfx k' bb
            · cases hside' : is_left k' bb with
              | false =>
                rw [lookupT_internal_right hm' hside', ihMap k',
                  lookupT_internal_right hm' hside']
              | true =>
                have hk'k : k' ≠ key := by
                  intro h
                  subst h
                  rw [hside] at hside'
                  cases hside'
                rw [lookupT_internal_left hm' hside', if_neg hk'k,
                  lookupT_internal_left hm' hside']
            · have hk'k : k' ≠ key := fun h => hm' (h ▸ hmis)
              rw [lookupT_internal_mismatch hm', if_neg hk'k,
                lookupT_internal_mismatch hm']
          · simp only [leafCount]
            omega
          · intro k' hm
            simp only [nodeKeys, List.mem_append] at hm
            rcases hm with h | h
            · exact Or.inr (by simp [nodeKeys, h])
            · rcases ihKeys k' h with h2 | h2
              · exact Or.inl h2
              · exact Or.inr (by simp [nodeKeys, h2])
      · rw [insert_aux_internal_mismatch hmis]
        obtain ⟨i0, hi0bb, hi0bit⟩ := exists_low_diff hp hmis
        have hd0 : p ^^^ key ≠ 0 := by
          intro h
          rw [h] at hi0bit
          simp [Nat.zero_testBit] at hi0bit
        have hplt : p < 2 ^ 64 :=
          lt_of_lt_of_le hp (Nat.pow_le_pow_right (by norm_num) (le_of_lt hbb))
        have hdlt : p ^^^ key < 2 ^ 64 := Nat.xor_lt_two_pow hplt hk
        obtain ⟨htz, hbit, hlow⟩ := trailing_zeros_spec hd0 hdlt
        have htzbb : trailing_zeros (p ^^^ key) < bb := by
          rcases Nat.lt_or_ge i0 (trailing_zeros (p ^^^ key)) with h | h
          · rw [hlow i0 h] at hi0bit
            cases hi0bit
          · omega
        have hkeys : ∀ k' ∈ nodeKeys (Node.Internal p bb l r),
            (∀ i, i < trailing_zeros (p ^^^ key) → k'.testBit i = key.testBit i) ∧
            k'.testBit (trailing_zeros (p ^^^ key)) =
              !key.testBit (trailing_zeros (p ^^^ key)) := by
          intro k' hm
          have hagree_p : ∀ i, i < bb → k'.testBit i = p.testBit i := by
            rcases List.mem_append.1 (by simpa [nodeKeys] using hm) with h | h
            · exact (hL k' h).1
            · exact (hR k' h).1
          constructor
          · intro i hi
            rw [hagree_p i (lt_trans hi htzbb)]
            exact testBit_eq_of_xor_bit_false (hlow i hi)
          · rw [hagree_p _ htzbb]
            exact testBit_eq_not_of_xor_bit_true hbit
        obtain ⟨hG, hC, hM, hK⟩ :=
          do_insert_spec (p ^^^ key) key value (.Internal p bb l r) hk hg htz hkeys
        refine ⟨hG, ?_, hM, ?_, hK⟩
        · rw [lookupT_internal_mismatch hmis]
        · simpa using hC

/-! ## Iterator correctness -/

/-- The ancestors (nearest first) of the leftmost leaf, as pushed by find_leftmost. -/
def ancL : Node V → List (INode V)
  | .Leaf _ _ => []
  | .Internal p bb l r => ancL l ++ [⟨p, bb, l, r⟩]

/-- The ancestors (nearest first) of the rightmost leaf. -/
def ancR : Node V → List (INode V)
  | .Leaf _ _ => []
  | .Internal p bb l r => ancR r ++ [⟨p, bb, l, r⟩]

/-- last_was_left after find_leftmost entered with flag b. -/
def lwlE : Node V → Bool → Bool
  | .Leaf _ _, b => b
  | .Internal _ _ _ _, _ => true

/-- last_was_left after the last leaf of the subtree is produced, when the
subtree was entered with flag b. -/
def lwlX : Node V → Bool → Bool
  | .Leaf _ _, b => b
  | .Internal _ _ _ _, _ => false

lemma lwlE_true (s : Node V) : lwlE s true = true := by cases s <;> rfl

lemma lwlX_false (s : Node V) : lwlX s false = false := by cases s <;> rfl

lemma flLoop_eq (s : Node V) : ∀ (path : List (INode V)) (lwl : Bool),
    flLoop path lwl s = (ancL s ++ path, lwlE s lwl, firstLeaf s) := by
  induction s with
  | Leaf k v => intro path lwl; rfl
  | Internal p bb l r ihl ihr =>
    intro path lwl
    show flLoop (⟨p, bb, l, r⟩ :: path) true l = _
    rw [ihl, lwlE_true]
    simp [ancL, lwlE, firstLeaf]

lemma inorder_eq_cons (t : Node V) : inorder t = firstLeaf t :: (inorder t).tail := by
  induction t with
  | Leaf k v => rfl
  | Internal p bb l r ihl ihr =>
    show inorder l ++ inorder r = firstLeaf l :: (inorder l ++ inorder r).tail
    conv_lhs => rw [ihl]
    conv_rhs => rw [ihl]
    simp

/-- Backtracking from the right spine of a good internal subtree pops the
whole spine (every hop is a right child) and continues with the subtree's
own top node against the outer stack. -/
lemma bt_spine : ∀ (r : Node V) (p bb : Nat) (l : Node V),
    Good (.Internal p bb l r) → ∀ Q : List (INode V),
    ∃ h t, (ancR r ++ [⟨p, bb, l, r⟩]) ++ Q = h :: t ∧
      backtrack h t = backtrack ⟨p, bb, l, r⟩ Q := by
  intro r
  induction r with
  | Leaf kr vr =>
    intro p bb l hg Q
    exact ⟨⟨p, bb, l, .Leaf kr vr⟩, Q, by simp [ancR], rfl⟩
  | Internal pr bbr lr rr ihl ihr =>
    intro p bb l hg Q
    have hgr : Good (Node.Internal pr bbr lr rr) := by
      cases hg with
      | internal _ _ _ _ _ _ _ _ _ h => exact h
    obtain ⟨h, t, hht, hbt⟩ := ihr pr bbr lr hgr (⟨p, bb, l, .Internal pr bbr lr rr⟩ :: Q)
    refine ⟨h, t, ?_, ?_⟩
    · rw [show ancR (Node.Internal pr bbr lr rr) = ancR rr ++ [⟨pr, bbr, lr, rr⟩] from rfl]
      rw [← hht]
      simp
    · rw [hbt]
      have hbit := (child_pfx_right hg rfl).2
      simp [backtrack, is_left_eq, hbit]

lemma run_add (n1 : Nat) : ∀ (it : Iter V) (n2 : Nat),
    it.run (n1 + n2) = ((it.run n1).1 ++ ((it.run n1).2.run n2).1, ((it.run n1).2.run n2).2) := by
  induction n1 with
  | zero => intro it n2; simp [Iter.run]
  | succ n ih =>
    intro it n2
    have he : n + 1 + n2 = (n + n2) + 1 := by omega
    rw [he]
    show (it.next.2 :: (it.next.1.run (n + n2)).1, (it.next.1.run (n + n2)).2) = _
    rw [ih it.next.1 n2]
    simp [Iter.run]

/-! Reduction lemmas for Iter.next on each shape of state. -/

lemma next_nil_none {m : PatriciaTreeMap V} (hroot : m.root = none) (lwl : Bool) :
    Iter.next ⟨m, [], lwl⟩ = (⟨m, [], lwl⟩, none) := by
  simp only [Iter.next, hroot]

lemma next_nil_true {m : PatriciaTreeMap V} {tr : Node V} (hroot : m.root = some tr) :
    Iter.next ⟨m, [], true⟩ =
      (⟨m, (flLoop [] false tr).1, (flLoop [] false tr).2.1⟩,
        some (flLoop [] false tr).2.2) := by
  simp only [Iter.next, hroot]
  rfl

lemma next_nil_false {m : PatriciaTreeMap V} {tr : Node V} (hroot : m.root = some tr) :
    Iter.next ⟨m, [], false⟩ = (⟨m, [], true⟩, none) := by
  simp only [Iter.next, hroot]
  rfl

lemma next_cons_true (m : PatriciaTreeMap V) (h : INode V) (t : List (INode V)) :
    Iter.next ⟨m, h :: t, true⟩ =
      (⟨m, (flLoop (h :: t) false h.right).1, (flLoop (h :: t) false h.right).2.1⟩,
        some (flLoop (h :: t) false h.right).2.2) := rfl

lemma next_cons_false {m : PatriciaTreeMap V} {h : INode V} {t : List (INode V)}
    {n1 : INode V} {n2 : List (INode V)} (hbt : backtrack h t = some (n1, n2)) :
    Iter.next ⟨m, h :: t, false⟩ =
      (⟨m, (flLoop (n1 :: n2) false n1.right).1,
        (flLoop (n1 :: n2) false n1.right).2.1⟩,
        some (flLoop (n1 :: n2) false n1.right).2.2) := by
  simp [Iter.next, hbt]

lemma next_cons_false_none {m : PatriciaTreeMap V} {h : INode V} {t : List (INode V)}
    (hbt : backtrack h t = none) :
    Iter.next ⟨m, h :: t, false⟩ = (⟨m, [], true⟩, none) := by
  simp [Iter.next, hbt]

lemma tail_inorder_internal (p bb : Nat) (l r : Node V) :
    (inorder (Node.Internal p bb l r)).tail =
      (inorder l).tail ++ (firstLeaf r :: (inorder r).tail) := by
  show (inorder l ++ inorder r).tail = _
  conv_lhs => rw [inorder_eq_cons l, inorder_eq_cons r]
  simp

/-- Master traversal lemma: after find_leftmost has entered a good subtree s
over outer stack Q (yielding firstLeaf s), the following leafCount s - 1
next() calls yield the remaining in-order pairs of s, ending in the state
whose stack is s's right spine over Q. -/
lemma traverse (s : Node V) (hg : Good s) :
    ∀ (Q : List (INode V)) (b : Bool) (m : PatriciaTreeMap V),
    Iter.run ⟨m, ancL s ++ Q, lwlE s b⟩ (leafCount s - 1) =
      (((inorder s).tail).map some, ⟨m, ancR s ++ Q, lwlX s b⟩) := by
  induction s with
  | Leaf k v =>
    intro Q b m
    simp [leafCount, Iter.run, ancL, ancR, lwlE, lwlX, inorder]
  | Internal p bb l r ihl ihr =>
    intro Q b m
    have hgl : Good l := by
      cases hg with
      | internal _ _ _ _ _ _ _ _ h _ => exact h
    have hgr : Good r := by
      cases hg with
      | internal _ _ _ _ _ _ _ _ _ h => exact h
    have hcl := leafCount_pos l
    have hcr := leafCount_pos r
    have hcount : leafCount (Node.Internal p bb l r) - 1 =
        (leafCount l - 1) + ((leafCount r - 1) + 1) := by
      simp only [leafCount]
      omega
    have hnext : (⟨m, ancR l ++ (⟨p, bb, l, r⟩ :: Q), lwlX l true⟩ : Iter V).next =
        (⟨m, ancL r ++ (⟨p, bb, l, r⟩ :: Q), lwlE r false⟩, some (firstLeaf r)) := by
      cases hl : l with
      | Leaf kl vl =>
        subst hl
        show Iter.next ⟨m, ⟨p, bb, Node.Leaf kl vl, r⟩ :: Q, true⟩ = _
        rw [next_cons_true, flLoop_eq]
      | Internal pl bbl ll lr =>
        subst hl
        obtain ⟨h, t, hht, hbt⟩ :=
          bt_spine lr pl bbl ll hgl (⟨p, bb, Node.Internal pl bbl ll lr, r⟩ :: Q)
        have hbit := (child_pfx_left hg rfl).2
        have hbt2 : backtrack h t =
            some (⟨p, bb, Node.Internal pl bbl ll lr, r⟩, Q) := by
          rw [hbt]
          simp [backtrack, is_left_eq, hbit]
        show Iter.next ⟨m, (ancR lr ++ [⟨pl, bbl, ll, lr⟩]) ++
          (⟨p, bb, Node.Internal pl bbl ll lr, r⟩ :: Q), false⟩ = _
        rw [hht, next_cons_false hbt2, flLoop_eq]
    rw [hcount]
    rw [show (⟨m, ancL (Node.Internal p bb l r) ++ Q, lwlE (Node.Internal p bb l r) b⟩ : Iter V) =
        ⟨m, ancL l ++ (⟨p, bb, l, r⟩ :: Q), lwlE l true⟩ from by
      rw [lwlE_true l]
      simp [ancL, lwlE]]
    rw [run_add]
    rw [ihl hgl (⟨p, bb, l, r⟩ :: Q) true m]
    rw [show Iter.run (⟨m, ancR l ++ (⟨p, bb, l, r⟩ :: Q), lwlX l true⟩ : Iter V)
        ((leafCount r - 1) + 1) =
        (some (firstLeaf r) ::
          (Iter.run ⟨m, ancL r ++ (⟨p, bb, l, r⟩ :: Q), lwlE r false⟩ (leafCount r - 1)).1,
         (Iter.run ⟨m, ancL r ++ (⟨p, bb, l, r⟩ :: Q), lwlE r false⟩ (leafCount r - 1)).2) from by
      simp only [Iter.run]
      rw [hnext]]
    rw [ihr hgr (⟨p, bb, l, r⟩ :: Q) false m, lwlX_false r]
    simp [tail_inorder_internal, ancR, lwlX]

/-- Full run of a fresh iterator over a nonempty good tree: the in-order
pairs, then one exhaustion signal, and the iterator is back in its initial
state (so a further next() restarts the traversal). -/
lemma run_iter_full (m : PatriciaTreeMap V) (t : Node V) (hg : Good t)
    (hroot : m.root = some t) :
    m.iter.run (leafCount t + 1) = ((inorder t).map some ++ [none], m.iter) := by
  have hpos := leafCount_pos t
  have hc : leafCount t + 1 = 1 + ((leafCount t - 1) + 1) := by omega
  have hn1 : Iter.next ⟨m, [], true⟩ =
      (⟨m, ancL t ++ [], lwlE t false⟩, some (firstLeaf t)) := by
    rw [next_nil_true hroot, flLoop_eq]
  show Iter.run ⟨m, [], true⟩ (leafCount t + 1) = _
  rw [hc, run_add]
  have hrun1 : Iter.run (⟨m, [], true⟩ : Iter V) 1 =
      ([some (firstLeaf t)], ⟨m, ancL t ++ [], lwlE t false⟩) := by
    simp [Iter.run, hn1]
  rw [hrun1]
  rw [run_add]
  rw [traverse t hg [] false m]
  have hlast : Iter.run (⟨m, ancR t ++ [], lwlX t false⟩ : Iter V) 1 =
      ([none], ⟨m, [], true⟩) := by
    cases t with
    | Leaf k v =>
      simp [ancR, lwlX, Iter.run, next_nil_false hroot]
    | Internal pt bbt lt rt =>
      obtain ⟨h, tl, hht, hbt⟩ := bt_spine rt pt bbt lt hg []
      have hbt2 : backtrack h tl = none := by
        rw [hbt]
        rfl
      show Iter.run ⟨m, (ancR rt ++ [⟨pt, bbt, lt, rt⟩]) ++ [], false⟩ 1 = _
      rw [hht]
      simp [Iter.run, next_cons_false_none hbt2]
  rw [hlast]
  conv_rhs => rw [inorder_eq_cons t]
  simp [PatriciaTreeMap.iter]

/-- The in-order contents of a map. -/
def contents (m : PatriciaTreeMap V) : List (Nat × V) :=
  match m.root with
  | none => []
  | some t => inorder t

lemma inorder_length (t : Node V) : (inorder t).length = leafCount t := by
  induction t with
  | Leaf k v => rfl
  | Internal p bb l r ihl ihr => simp [inorder, leafCount, ihl, ihr]

lemma contents_none {m : PatriciaTreeMap V} (hroot : m.root = none) :
    contents m = [] := by
  simp [contents, hroot]

lemma contents_some {m : PatriciaTreeMap V} {t : Node V} (hroot : m.root = some t) :
    contents m = inorder t := by
  simp [contents, hroot]

/-- Full run of a fresh iterator on any well-formed map: len() pairs, then
one exhaustion signal, then the initial state again. -/
lemma run_iter (m : PatriciaTreeMap V) (hw : WF m) :
    m.iter.run (m.size + 1) = ((contents m).map some ++ [none], m.iter) := by
  cases hroot : m.root with
  | none =>
    rw [hw.1 hroot, contents_none hroot]
    show Iter.run ⟨m, [], true⟩ 1 = _
    simp [Iter.run, next_nil_none hroot, PatriciaTreeMap.iter]
  | some t =>
    obtain ⟨hg, hsz⟩ := hw.2 t hroot
    rw [hsz, contents_some hroot]
    exact run_iter_full m t hg hroot

lemma get_root_none {m : PatriciaTreeMap V} (hroot : m.root = none) (k : Nat) :
    m.get k = none := by
  simp [PatriciaTreeMap.get, PatriciaTreeMap.find_insertion_point, hroot]

lemma get_root_some {m : PatriciaTreeMap V} {t : Node V} (hroot : m.root = some t) (k : Nat) :
    m.get k = lookupT k t := by
  unfold PatriciaTreeMap.get PatriciaTreeMap.find_insertion_point lookupT
  rw [hroot]
  cases hfip : fip_aux k t <;> simp [hfip]

/-- Map-level functional correctness of insert on a well-formed map. -/
lemma insert_spec (m : PatriciaTreeMap V) (key : Nat) (value : V) (hw : WF m)
    (hk : key < 2 ^ 64) :
    WF (m.insert key value).1 ∧
    (m.insert key value).2 = m.get key ∧
    (∀ k', (m.insert key value).1.get k' =
      if k' = key then some value else m.get k') ∧
    (m.insert key value).1.size = m.size + (if (m.get key).isNone then 1 else 0) := by
  cases hroot : m.root with
  | none =>
    have hs0 : m.size = 0 := hw.1 hroot
    have hroot2 : (m.insert key value).1.root = some (Node.Leaf key value) := by
      simp [PatriciaTreeMap.insert, hroot]
    have hsize2 : (m.insert key value).1.size = m.size + 1 := by
      simp [PatriciaTreeMap.insert, hroot]
    have hres : (m.insert key value).2 = none := by
      simp [PatriciaTreeMap.insert, hroot]
    refine ⟨⟨fun h => ?_, fun t2 ht2 => ?_⟩, ?_, ?_, ?_⟩
    · rw [hroot2] at h
      cases h
    · rw [hroot2] at ht2
      injection ht2 with ht3
      subst ht3
      exact ⟨Good.leaf key value hk, by rw [hsize2, hs0]; rfl⟩
    · rw [hres, get_root_none hroot]
    · intro k'
      rw [get_root_some hroot2 k', lookupT_leaf, get_root_none hroot k']
      by_cases h : k' = key
      · subst h
        simp
      · have h2 : ¬ (key = k') := fun hc => h hc.symm
        simp [h, h2]
    · rw [hsize2, get_root_none hroot]
      rfl
  | some t =>
    obtain ⟨hg, hsz⟩ := hw.2 t hroot
    obtain ⟨hG, hRes, hMap, hCount, _⟩ := insert_aux_spec key value hk t hg
    have hroot2 : (m.insert key value).1.root = some (insert_aux key value t).1 := by
      simp [PatriciaTreeMap.insert, hroot]
    have hsize2 : (m.insert key value).1.size =
        m.size + (if (insert_aux key value t).2.isNone then 1 else 0) := by
      simp [PatriciaTreeMap.insert, hroot]
    have hres : (m.insert key value).2 = (insert_aux key value t).2 := by
      simp [PatriciaTreeMap.insert, hroot]
    refine ⟨⟨fun h => ?_, fun t2 ht2 => ?_⟩, ?_, ?_, ?_⟩
    · rw [hroot2] at h
      cases h
    · rw [hroot2] at ht2
      injection ht2 with ht3
      subst ht3
      refine ⟨hG, ?_⟩
      rw [hsize2, hsz, hCount]
    · rw [hres, get_root_some hroot, hRes]
    · intro k'
      rw [get_root_some hroot2 k', hMap k', get_root_some hroot k']
    · rw [hsize2, get_root_some hroot, hRes]

lemma WF_new : WF (PatriciaTreeMap.new : PatriciaTreeMap V) :=
  ⟨fun _ => rfl, fun t ht => by cases ht⟩

lemma WF_insert {m : PatriciaTreeMap V} (hw : WF m) {key : Nat} (hk : key < 2 ^ 64)
    (value : V) : WF (m.insert key value).1 :=
  (insert_spec m key value hw hk).1

/-! ## Ordering of the in-order traversal -/

/-- LSB-first (bit-reversed) strict order on u64 keys: x comes before y when
y holds a one at the lowest bit where they differ. -/
def lsbLt (x y : Nat) : Prop :=
  x ≠ y ∧ y.testBit (trailing_zeros (x ^^^ y)) = true

/-- Keys across a good split: they differ first exactly at the branch bit,
where the right key holds a one. -/
lemma cross_split {p bb : Nat} {l r : Node V} (hg : Good (.Internal p bb l r)) :
    ∀ kl ∈ nodeKeys l, ∀ kr ∈ nodeKeys r,
      trailing_zeros (kl ^^^ kr) = bb ∧ kl ≠ kr ∧ kr.testBit bb = true := by
  cases hg with
  | internal _ _ _ _ hbb hp hL hR hgl hgr =>
    intro kl hkl kr hkr
    have hkl64 := keys_lt l hgl kl hkl
    have hkr64 := keys_lt r hgr kr hkr
    have hlo : ∀ i, i < bb → (kl ^^^ kr).testBit i = false := by
      intro i hi
      rw [Nat.testBit_xor, (hL kl hkl).1 i hi, (hR kr hkr).1 i hi]
      simp
    have hhi : (kl ^^^ kr).testBit bb = true := by
      rw [Nat.testBit_xor, (hL kl hkl).2, (hR kr hkr).2]
      rfl
    have hlt : kl ^^^ kr < 2 ^ 64 := Nat.xor_lt_two_pow hkl64 hkr64
    refine ⟨trailing_zeros_eq hlt hhi hlo, ?_, (hR kr hkr).2⟩
    intro h
    have h1 := (hL kl hkl).2
    have h2 := (hR kr hkr).2
    rw [h, h2] at h1
    cases h1

/-- The keys of a good tree, read in order, are strictly ascending in the
LSB-first order. -/
lemma nodeKeys_pairwise (t : Node V) (hg : Good t) :
    List.Pairwise lsbLt (nodeKeys t) := by
  induction t with
  | Leaf k v => simp [nodeKeys]
  | Internal p bb l r ihl ihr =>
    have hgl : Good l := by
      cases hg with
      | internal _ _ _ _ _ _ _ _ h _ => exact h
    have hgr : Good r := by
      cases hg with
      | internal _ _ _ _ _ _ _ _ _ h => exact h
    rw [show nodeKeys (Node.Internal p bb l r) = nodeKeys l ++ nodeKeys r from rfl,
      List.pairwise_append]
    refine ⟨ihl hgl, ihr hgr, ?_⟩
    intro kl hkl kr hkr
    obtain ⟨htz, hne, hbit⟩ := cross_split hg kl hkl kr hkr
    exact ⟨hne, by rw [htz]; exact hbit⟩

/-- get finds exactly the in-order contents. -/
lemma get_iff_mem_contents (m : PatriciaTreeMap V) (hw : WF m) (k : Nat) (v : V) :
    m.get k = some v ↔ (k, v) ∈ contents m := by
  cases hroot : m.root with
  | none =>
    rw [get_root_none hroot, contents_none hroot]
    simp
  | some t =>
    obtain ⟨hg, _⟩ := hw.2 t hroot
    rw [get_root_some hroot, contents_some hroot]
    exact lookupT_iff hg k v

/-! ## The spec's structural invariant (C8) and the split-bit facts (C7, C10) -/

/-- The invariant exactly as the specification states it: for every internal
node, left keys have the branch bit clear, right keys have it set, and all
keys below the node agree with key_pfx on the bits below the branch bit. -/
def Inv : Node V → Prop
  | .Leaf _ _ => True
  | .Internal p bb l r =>
      (∀ k ∈ nodeKeys l, k.testBit bb = false) ∧
      (∀ k ∈ nodeKeys r, k.testBit bb = true) ∧
      (∀ k ∈ nodeKeys l ++ nodeKeys r, k % 2 ^ bb = p) ∧
      Inv l ∧ Inv r

lemma good_imp_inv (t : Node V) (hg : Good t) : Inv t := by
  induction t with
  | Leaf k v => simp [Inv]
  | Internal p bb l r ihl ihr =>
    cases hg with
    | internal _ _ _ _ hbb hp hL hR hgl hgr =>
      refine ⟨fun k hk => (hL k hk).2, fun k hk => (hR k hk).2, ?_, ihl hgl, ihr hgr⟩
      intro k hk
      have hagree : ∀ i, i < bb → k.testBit i = p.testBit i := by
        rcases List.mem_append.1 hk with h | h
        · exact (hL k h).1
        · exact (hR k h).1
      exact (mod_two_pow_eq_iff hp k).2 hagree

/-- Every internal node's branch bit is the index of the LOWEST set bit of
the XOR of any key in its left subtree with any key in its right subtree. -/
def everySplitLowest : Node V → Prop
  | .Leaf _ _ => True
  | .Internal _ bb l r =>
      (∀ kl ∈ nodeKeys l, ∀ kr ∈ nodeKeys r, trailing_zeros (kl ^^^ kr) = bb) ∧
      everySplitLowest l ∧ everySplitLowest r

lemma good_imp_everySplitLowest (t : Node V) (hg : Good t) : everySplitLowest t := by
  induction t with
  | Leaf k v => simp [everySplitLowest]
  | Internal p bb l r ihl ihr =>
    have hgl : Good l := by
      cases hg with
      | internal _ _ _ _ _ _ _ _ h _ => exact h
    have hgr : Good r := by
      cases hg with
      | internal _ _ _ _ _ _ _ _ _ h => exact h
    exact ⟨fun kl hkl kr hkr => (cross_split hg kl hkl kr hkr).1, ihl hgl, ihr hgr⟩

/-- All branch bits in the tree are < 64 (so the shifts 1 << branch_bit in
get_prefix and is_left never shift by 64 or more). -/
def bitsBounded : Node V → Prop
  | .Leaf _ _ => True
  | .Internal _ bb l r => bb < 64 ∧ bitsBounded l ∧ bitsBounded r

lemma good_imp_bitsBounded (t : Node V) (hg : Good t) : bitsBounded t := by
  induction t with
  | Leaf k v => simp [bitsBounded]
  | Internal p bb l r ihl ihr =>
    cases hg with
    | internal _ _ _ _ hbb _ _ _ hgl hgr => exact ⟨hbb, ihl hgl, ihr hgr⟩

/-- The diffs that insert's descent hands to do_insert for a given key:
one per stopping point (leaf with another key, or mismatching internal). -/
def insertDiffs (key : Nat) : Node V → List Nat
  | .Leaf k _ => if k ≠ key then [k ^^^ key] else []
  | .Internal p bb l r =>
    if p ≠ get_pfx key bb then [p ^^^ key]
    else if is_left key bb then insertDiffs key l else insertDiffs key r

lemma insertDiffs_spec (key : Nat) (hk : key < 2 ^ 64) :
    ∀ t : Node V, Good t → ∀ d ∈ insertDiffs key t, d ≠ 0 ∧ trailing_zeros d < 64 := by
  intro t
  induction t with
  | Leaf k0 v0 =>
    intro hg d hd
    have hk0 : k0 < 2 ^ 64 := by
      cases hg with
      | leaf _ _ h => exact h
    by_cases hne : k0 = key
    · simp [insertDiffs, hne] at hd
    · simp only [insertDiffs, hne, ne_eq, not_false_eq_true, if_true,
        List.mem_singleton] at hd
      subst hd
      have hd0 : k0 ^^^ key ≠ 0 := fun h => hne (Nat.xor_eq_zero.1 h)
      exact ⟨hd0, (trailing_zeros_spec hd0 (Nat.xor_lt_two_pow hk0 hk)).1⟩
  | Internal p bb l r ihl ihr =>
    intro hg d hd
    cases hg with
    | internal _ _ _ _ hbb hp hL hR hgl hgr =>
      by_cases hmis : p = get_pfx key bb
      · cases hside : is_left key bb with
        | true =>
          simp only [insertDiffs, hmis, ne_eq, not_true_eq_false, if_false, hside,
            if_true] at hd
          exact ihl hgl d hd
        | false =>
          simp only [insertDiffs, hmis, ne_eq, not_true_eq_false, if_false, hside,
            Bool.false_eq_true] at hd
          exact ihr hgr d hd
      · simp only [insertDiffs, hmis, ne_eq, not_false_eq_true, if_true,
          List.mem_singleton] at hd
        subst hd
        obtain ⟨i0, hi0, hbit⟩ := exists_low_diff hp hmis
        have hd0 : p ^^^ key ≠ 0 := by
          intro h
          rw [h] at hbit
          simp [Nat.zero_testBit] at hbit
        have hplt : p < 2 ^ 64 :=
          lt_of_lt_of_le hp (Nat.pow_le_pow_right (by norm_num) (le_of_lt hbb))
        exact ⟨hd0, (trailing_zeros_spec hd0 (Nat.xor_lt_two_pow hplt hk)).1⟩

/-! ## Reference model for sequences of insertions (C2) -/

/-- The last value inserted for key k in the operation sequence, if any. -/
def lastVal (ops : List (Nat × V)) (k : Nat) : Option V :=
  (ops.filterMap (fun kv => if kv.1 = k then some kv.2 else none)).getLast?

/-- Fold the operation sequence through insert, starting from new(). -/
def insertAll (ops : List (Nat × V)) : PatriciaTreeMap V :=
  ops.foldl (fun m kv => (m.insert kv.1 kv.2).1) PatriciaTreeMap.new

lemma lastVal_concat (ops : List (Nat × V)) (a : Nat × V) (k : Nat) :
    lastVal (ops ++ [a]) k = if a.1 = k then some a.2 else lastVal ops k := by
  unfold lastVal
  rw [List.filterMap_append]
  by_cases h : a.1 = k
  · simp [List.filterMap, h, List.getLast?_concat]
  · simp [List.filterMap, h]

lemma lastVal_eq_none_iff (ops : List (Nat × V)) (k : Nat) :
    lastVal ops k = none ↔ k ∉ ops.map Prod.fst := by
  induction ops using List.reverseRecOn with
  | nil => simp [lastVal]
  | append_singleton ops a ih =>
    rw [lastVal_concat]
    by_cases h : a.1 = k
    · simp [h]
    · rw [if_neg h, ih]
      simp only [List.map_append, List.map_cons, List.map_nil, List.mem_append,
        List.mem_singleton]
      constructor
      · intro hn hc
        rcases hc with hc | hc
        · exact hn hc
        · exact h hc.symm
      · intro hn hc
        exact hn (Or.inl hc)

lemma insertAll_concat (ops : List (Nat × V)) (a : Nat × V) :
    insertAll (ops ++ [a]) = ((insertAll ops).insert a.1 a.2).1 := by
  simp [insertAll, List.foldl_append]

/-- C2 machinery: the folded map is well-formed, its size counts the distinct
inserted keys, and get returns the last value written per key. -/
lemma insertAll_spec (ops : List (Nat × V)) (hops : ∀ kv ∈ ops, kv.1 < 2 ^ 64) :
    WF (insertAll ops) ∧
    (insertAll ops).size = ((ops.map Prod.fst).toFinset).card ∧
    ∀ k, k < 2 ^ 64 → (insertAll ops).get k = lastVal ops k := by
  induction ops using List.reverseRecOn with
  | nil =>
    refine ⟨WF_new, by simp [insertAll, PatriciaTreeMap.new], ?_⟩
    intro k _
    exact get_root_none (show (insertAll ([] : List (Nat × V))).root = none from rfl) k
  | append_singleton ops a ih =>
    have hops' : ∀ kv ∈ ops, kv.1 < 2 ^ 64 := fun kv h => hops kv (by simp [h])
    obtain ⟨hw, hsz, hget⟩ := ih hops'
    have ha64 : a.1 < 2 ^ 64 := hops a (by simp)
    obtain ⟨hw2, _, hmap, hsize⟩ := insert_spec (insertAll ops) a.1 a.2 hw ha64
    rw [insertAll_concat]
    refine ⟨hw2, ?_, ?_⟩
    · rw [hsize, hsz, hget a.1 ha64]
      rw [show (ops ++ [a]).map Prod.fst = ops.map Prod.fst ++ [a.1] from by simp]
      rw [List.toFinset_append]
      by_cases hmem : a.1 ∈ ops.map Prod.fst
      · have hne : lastVal ops a.1 ≠ none := by
          rw [ne_eq, lastVal_eq_none_iff]
          simpa using hmem
        have hisnone : (lastVal ops a.1).isNone = false := by
          cases hval : lastVal ops a.1
          · exact absurd hval hne
          · rfl
        rw [hisnone]
        have hsub : ([a.1] : List Nat).toFinset ⊆ (ops.map Prod.fst).toFinset := by
          intro x hx
          simp at hx
          subst hx
          simpa using hmem
        rw [Finset.union_eq_left.2 hsub]
        rfl
      · have hnone : lastVal ops a.1 = none := (lastVal_eq_none_iff ops a.1).2 hmem
        rw [hnone]
        have hunion : (ops.map Prod.fst).toFinset ∪ ([a.1] : List Nat).toFinset =
            insert a.1 (ops.map Prod.fst).toFinset := by
          rw [Finset.union_comm]
          simp [Finset.insert_eq]
        rw [hunion, Finset.card_insert_of_not_mem (by simpa using hmem)]
        rfl
    · intro k hk64
      rw [hmap k, lastVal_concat]
      by_cases h : k = a.1
      · subst h
        simp
      · have h2 : ¬ (a.1 = k) := fun hc => h hc.symm
        simp only [h, if_false, h2]
        exact hget k hk64

/-! ## Set-level behaviour (C9) -/

lemma set_insert_iff (s : PatriciaTreeSet) (hw : WF s.base) (k : Nat) (hk : k < 2 ^ 64) :
    (s.insert k).2 = true ↔ s.contains k = false := by
  obtain ⟨_, hres, _, _⟩ := insert_spec s.base k () hw hk
  show ((s.base.insert k ()).2.isNone = true) ↔ _
  rw [hres]
  unfold PatriciaTreeSet.contains PatriciaTreeMap.contains
  cases s.base.get k <;> simp

/-! ## The claims -/

/-- C1 (corrected): the claim asserts the iterator's keys are strictly
ascending in numeric u64 order; on the map holding keys 1 and 2 the fresh
iterator yields key 2 before key 1, so the claim as stated is false. -/
theorem C1_counterexample :
    ((((PatriciaTreeMap.new.insert 1 10).1.insert 2 20).1.iter.run 2).1 =
      [some (2, 20), some (1, 10)]) ∧ ¬ (2 < 1) := by decide

/-- C1 (amended): for every well-formed map, the fresh iterator's next()
calls yield the map's pairs and then the exhaustion signal, and the key
sequence is strictly ascending in the LSB-first (bit-reversed) order lsbLt —
the order given by the lowest differing bit — not in plain numeric order. -/
theorem C1_iter_keys_ascending_lsb (m : PatriciaTreeMap V) (hw : WF m) :
    (m.iter.run (m.size + 1)).1 = (contents m).map some ++ [none] ∧
    List.Pairwise lsbLt ((contents m).map Prod.fst) := by
  refine ⟨by rw [run_iter m hw], ?_⟩
  cases hroot : m.root with
  | none =>
    rw [contents_none hroot]
    simp
  | some t =>
    rw [contents_some hroot, ← nodeKeys_eq_map]
    exact nodeKeys_pairwise t (hw.2 t hroot).1

theorem C1_witness :
    ((((PatriciaTreeMap.new.insert 1 10).1.insert 2 20).1.iter.run
        ((((PatriciaTreeMap.new.insert 1 10).1.insert 2 20).1.size + 1))).1 =
      (contents (((PatriciaTreeMap.new.insert 1 10).1.insert 2 20).1)).map some ++ [none]) ∧
    List.Pairwise lsbLt
      ((contents (((PatriciaTreeMap.new.insert 1 10).1.insert 2 20).1)).map Prod.fst) :=
  C1_iter_keys_ascending_lsb (((PatriciaTreeMap.new.insert 1 10).1.insert 2 20).1)
    (WF_insert (WF_insert WF_new (by decide) 10) (by decide) 20)

/-- C2 (confirmed): for every sequence of u64 (key, value) insertions into a
map created by new(), len() equals the number of distinct keys inserted,
get(k) returns the last value written for every inserted key k, and get
returns absent for every key never inserted. -/
theorem C2_insert_sequences (ops : List (Nat × V)) (hops : ∀ kv ∈ ops, kv.1 < 2 ^ 64) :
    (insertAll ops).len = ((ops.map Prod.fst).toFinset).card ∧
    (∀ k, k < 2 ^ 64 → (insertAll ops).get k = lastVal ops k) ∧
    (∀ k, k < 2 ^ 64 → k ∉ ops.map Prod.fst → (insertAll ops).get k = none) := by
  obtain ⟨hw, hsz, hget⟩ := insertAll_spec ops hops
  refine ⟨hsz, hget, ?_⟩
  intro k hk hmem
  rw [hget k hk]
  exact (lastVal_eq_none_iff ops k).2 hmem

theorem C2_witness :
    (insertAll ([(1, 10), (1, 20), (2, 30)] : List (Nat × Nat))).len =
      ((([(1, 10), (1, 20), (2, 30)] : List (Nat × Nat)).map Prod.fst).toFinset).card ∧
    (insertAll ([(1, 10), (1, 20), (2, 30)] : List (Nat × Nat))).get 1 =
      lastVal ([(1, 10), (1, 20), (2, 30)] : List (Nat × Nat)) 1 ∧
    (insertAll ([(1, 10), (1, 20), (2, 30)] : List (Nat × Nat))).get 5 = none := by
  have h := C2_insert_sequences ([(1, 10), (1, 20), (2, 30)] : List (Nat × Nat)) (by decide)
  exact ⟨h.1, h.2.1 1 (by decide), h.2.2 5 (by decide) (by decide)⟩

/-- C3 (confirmed): on a well-formed map, inserting an already-present key
returns Some of the previous value and leaves len() unchanged; inserting an
absent key returns None and increments len() by exactly 1. -/
theorem C3_insert_return_and_size (m : PatriciaTreeMap V) (key : Nat) (value : V)
    (hw : WF m) (hk : key < 2 ^ 64) :
    (∀ prev, m.get key = some prev →
      (m.insert key value).2 = some prev ∧ (m.insert key value).1.len = m.len) ∧
    (m.get key = none →
      (m.insert key value).2 = none ∧ (m.insert key value).1.len = m.len + 1) := by
  obtain ⟨_, hres, _, hsize⟩ := insert_spec m key value hw hk
  constructor
  · intro prev hprev
    refine ⟨by rw [hres, hprev], ?_⟩
    show (m.insert key value).1.size = m.size
    rw [hsize, hprev]
    rfl
  · intro hnone
    refine ⟨by rw [hres, hnone], ?_⟩
    show (m.insert key value).1.size = m.size + 1
    rw [hsize, hnone]
    rfl

theorem C3_witness :
    ((PatriciaTreeMap.new.insert 5 7).1.insert 5 9).2 = some 7 ∧
    ((PatriciaTreeMap.new.insert 5 7).1.insert 5 9).1.len =
      (PatriciaTreeMap.new.insert 5 7).1.len :=
  (C3_insert_return_and_size (PatriciaTreeMap.new.insert 5 7).1 5 9
    (WF_insert WF_new (by decide) 7) (by decide)).1 7 (by decide)

/-- C4 (corrected): the claim asserts the iterator keeps returning done after
exhaustion; in fact after the single done it has returned to its initial
state: for the one-key map, the third next() call yields the pair again. -/
theorem C4_counterexample :
    ((PatriciaTreeMap.new.insert 5 7).1.iter.run 3).1 =
      [some (5, 7), none, some (5, 7)] := by decide

/-- C4 (amended): a fresh iterator yields exactly len() pairs — which, read
as a key→value mapping, are exactly the map's contents — followed by exactly
one done; it is then back in its initial state, so further next() calls
repeat the traversal instead of staying done. -/
theorem C4_iter_yields_len_then_restarts (m : PatriciaTreeMap V) (hw : WF m) :
    m.iter.run (m.size + 1) = ((contents m).map some ++ [none], m.iter) ∧
    (contents m).length = m.size ∧
    (∀ k v, (k, v) ∈ contents m ↔ m.get k = some v) := by
  refine ⟨run_iter m hw, ?_, fun k v => (get_iff_mem_contents m hw k v).symm⟩
  cases hroot : m.root with
  | none =>
    rw [contents_none hroot, hw.1 hroot]
    rfl
  | some t =>
    rw [contents_some hroot, inorder_length, (hw.2 t hroot).2]

theorem C4_witness :
    ((PatriciaTreeMap.new.insert 5 7).1.iter.run
      ((PatriciaTreeMap.new.insert 5 7).1.size + 1) =
      ((contents (PatriciaTreeMap.new.insert 5 7).1).map some ++ [none],
        (PatriciaTreeMap.new.insert 5 7).1.iter)) ∧
    ((5, 7) ∈ contents (PatriciaTreeMap.new.insert 5 7).1 ↔
      (PatriciaTreeMap.new.insert 5 7).1.get 5 = some 7) := by
  have h := C4_iter_yields_len_then_restarts (PatriciaTreeMap.new.insert 5 7).1
    (WF_insert WF_new (by decide) 7)
  exact ⟨h.1, h.2.2 5 7⟩

/-- C5 (confirmed): the concrete scenario of the specification and of the
source's test_iter: after inserting 0b001→"B" the iterator yields exactly
[(0b001,"B")]; after additionally inserting 0b011→"C" then 0b010→"A" it
yields exactly [(0b010,"A"), (0b001,"B"), (0b011,"C")] in that order. -/
theorem C5_concrete_scenario :
    (((PatriciaTreeMap.new.insert 1 "B").1.iter.run 2).1 = [some (1, "B"), none]) ∧
    (((((PatriciaTreeMap.new.insert 1 "B").1.insert 3 "C").1.insert 2 "A").1.iter.run 4).1 =
      [some (2, "A"), some (1, "B"), some (3, "C"), none]) := by decide

/-- C6 (confirmed): whenever insert splits a leaf holding another key, or an
internal node whose prefix mismatches, the new Internal node's branch_bit is
trailing_zeros of the XOR of the two keys/prefixes — the index of the lowest
set bit of the XOR (the bit is set there and every lower bit is clear),
never the highest. -/
theorem C6_branch_bit_lowest (key : Nat) (value : V) (hk : key < 2 ^ 64) :
    (∀ k0 (v0 : V), k0 < 2 ^ 64 → k0 ≠ key →
      (∃ l r, (insert_aux key value (.Leaf k0 v0)).1 =
        .Internal (get_pfx key (trailing_zeros (k0 ^^^ key)))
          (trailing_zeros (k0 ^^^ key)) l r) ∧
      (k0 ^^^ key).testBit (trailing_zeros (k0 ^^^ key)) = true ∧
      (∀ i, i < trailing_zeros (k0 ^^^ key) → (k0 ^^^ key).testBit i = false)) ∧
    (∀ p bb (l0 r0 : Node V), p < 2 ^ bb → bb < 64 → p ≠ get_pfx key bb →
      (∃ l r, (insert_aux key value (.Internal p bb l0 r0)).1 =
        .Internal (get_pfx key (trailing_zeros (p ^^^ key)))
          (trailing_zeros (p ^^^ key)) l r) ∧
      (p ^^^ key).testBit (trailing_zeros (p ^^^ key)) = true ∧
      (∀ i, i < trailing_zeros (p ^^^ key) → (p ^^^ key).testBit i = false)) := by
  constructor
  · intro k0 v0 hk0 hne
    have hd0 : k0 ^^^ key ≠ 0 := fun h => hne (Nat.xor_eq_zero.1 h)
    have hdlt := Nat.xor_lt_two_pow hk0 hk
    obtain ⟨_, hb, hl⟩ := trailing_zeros_spec hd0 hdlt
    refine ⟨?_, hb, hl⟩
    rw [insert_aux_leaf_ne hne]
    cases hkb : key.testBit (trailing_zeros (k0 ^^^ key)) with
    | false => exact ⟨_, _, by rw [do_insert_eq_left hkb]⟩
    | true => exact ⟨_, _, by rw [do_insert_eq_right hkb]⟩
  · intro p bb l0 r0 hp hbb hmis
    obtain ⟨i0, hi0, hbit⟩ := exists_low_diff hp hmis
    have hd0 : p ^^^ key ≠ 0 := by
      intro h
      rw [h] at hbit
      simp [Nat.zero_testBit] at hbit
    have hplt : p < 2 ^ 64 :=
      lt_of_lt_of_le hp (Nat.pow_le_pow_right (by norm_num) (le_of_lt hbb))
    have hdlt := Nat.xor_lt_two_pow hplt hk
    obtain ⟨_, hb, hl⟩ := trailing_zeros_spec hd0 hdlt
    refine ⟨?_, hb, hl⟩
    rw [insert_aux_internal_mismatch hmis]
    cases hkb : key.testBit (trailing_zeros (p ^^^ key)) with
    | false => exact ⟨_, _, by rw [do_insert_eq_left hkb]⟩
    | true => exact ⟨_, _, by rw [do_insert_eq_right hkb]⟩

theorem C6_witness :
    (∃ l r, (insert_aux 2 (0 : Nat) (Node.Leaf 1 0)).1 =
      Node.Internal (get_pfx 2 (trailing_zeros (1 ^^^ 2))) (trailing_zeros (1 ^^^ 2)) l r) ∧
    (1 ^^^ 2).testBit (trailing_zeros (1 ^^^ 2)) = true :=
  ⟨((C6_branch_bit_lowest 2 (0 : Nat) (by decide)).1 1 0 (by decide) (by decide)).1,
    ((C6_branch_bit_lowest 2 (0 : Nat) (by decide)).1 1 0 (by decide) (by decide)).2.1⟩

/-- C7 (corrected): the claim asserts every Internal node encodes the MOST
significant differing bit; inserting 1 then 2 (XOR = 0b11, highest differing
bit 1) creates the Internal node at branch_bit 0, the lowest differing bit. -/
theorem C7_counterexample :
    (((PatriciaTreeMap.new.insert 1 (0 : Nat)).1.insert 2 0).1.root =
      some (.Internal 0 0 (.Leaf 2 0) (.Leaf 1 0))) ∧
    (1 ^^^ 2).testBit 1 = true ∧ (0 : Nat) < 1 := by decide

/-- C7 (amended): in every reachable tree, every Internal node encodes the
LEAST significant differing bit between the keys of its two subtrees:
trailing_zeros (kl XOR kr) = branch_bit for every left key kl and right key
kr. -/
theorem C7_internal_encodes_lowest_diff (m : PatriciaTreeMap V) (hw : WF m)
    (t : Node V) (hroot : m.root = some t) : everySplitLowest t :=
  good_imp_everySplitLowest t (hw.2 t hroot).1

theorem C7_witness :
    everySplitLowest (Node.Internal 0 0 (Node.Leaf 2 (0 : Nat)) (Node.Leaf 1 0)) :=
  C7_internal_encodes_lowest_diff (((PatriciaTreeMap.new.insert 1 (0 : Nat)).1.insert 2 0).1)
    (WF_insert (WF_insert WF_new (by decide) 0) (by decide) 0)
    (Node.Internal 0 0 (Node.Leaf 2 0) (Node.Leaf 1 0)) (by decide)

/-- C8 (confirmed): the spec's structural predicate Inv (left keys have the
branch bit clear, right keys set, all keys agree with key_prefix below it)
is an invariant of every reachable map: it holds for new() (vacuously: no
root), insert preserves well-formedness, and every well-formed map's tree
satisfies Inv.  get and iter borrow the map immutably (they are pure
functions of it here), so they preserve it trivially. -/
theorem C8_invariant_preserved :
    (WF (PatriciaTreeMap.new : PatriciaTreeMap V)) ∧
    (∀ (m : PatriciaTreeMap V) (key : Nat) (value : V), WF m → key < 2 ^ 64 →
      WF (m.insert key value).1) ∧
    (∀ m : PatriciaTreeMap V, WF m → ∀ t, m.root = some t → Inv t) := by
  refine ⟨WF_new, ?_, ?_⟩
  · intro m key value hw hk
    exact WF_insert hw hk value
  · intro m hw t hroot
    exact good_imp_inv t (hw.2 t hroot).1

/-- C9 (confirmed): set insert(k) returns true iff k was not previously in
the set (the underlying map's insert reported no previous value), and the
concrete scenario: insert(5) → true, insert(5) again → false, contains(5) →
true, len() → 1. -/
theorem C9_set_insert_new_iff :
    (∀ (s : PatriciaTreeSet) (k : Nat), WF s.base → k < 2 ^ 64 →
      ((s.insert k).2 = true ↔ s.contains k = false)) ∧
    (PatriciaTreeSet.new.insert 5).2 = true ∧
    ((PatriciaTreeSet.new.insert 5).1.insert 5).2 = false ∧
    (PatriciaTreeSet.new.insert 5).1.contains 5 = true ∧
    (PatriciaTreeSet.new.insert 5).1.len = 1 := by
    refine ⟨?_, by decide, by decide, by decide, by decide⟩
    intro s k hw hk
    exact set_insert_iff s hw k hk

/-- C10 (confirmed): in every reachable tree every Internal node's
branch_bit is below 64 (at most 63), so the shifts 1 << branch_bit in
get_prefix and is_left during descent shift by less than 64; and every diff
that insert's descent hands to do_insert (a leaf holding a different key, or
a mismatching internal prefix) is nonzero with trailing_zeros below 64, so
the shift by the new branch bit is also below 64: no arithmetic-overflow
panic is reachable. -/
theorem C10_no_overflow :
    (∀ (m : PatriciaTreeMap V) (t : Node V), WF m → m.root = some t → bitsBounded t) ∧
    (∀ (key : Nat) (t : Node V), key < 2 ^ 64 → Good t →
      ∀ d ∈ insertDiffs key t, d ≠ 0 ∧ trailing_zeros d < 64) := by
  constructor
  · intro m t hw hroot
    exact good_imp_bitsBounded t (hw.2 t hroot).1
  · intro key t hk hg
    exact insertDiffs_spec key hk t hg

end Patricia
